import Mathlib

/-!
Verification development for the inference.sh node app SDK
(file reference, content-addressed cache, download utility).

The definitions below are a shallow embedding of `src/storage.ts` (the
`File` class and its helpers), `src/download.ts` (the `download`
utility) and the storage directory constants.  Filesystem and network
effects are modelled by an explicit `World` state: the filesystem is a
function from path strings to optional file contents, the network is a
function from URL strings to a fetch outcome, and `fetchCount` counts
the network fetches performed.  Machine-level byte strings are modelled
as Lean strings (the inputs of interest are ASCII).
-/

/-- One word reduced modulo 2^32. -/
def w32 (x : Nat) : Nat := x % 4294967296

/-- Right rotation of a 32-bit word by `n` bits, in pure arithmetic. -/
def rotr (n x : Nat) : Nat := x / 2 ^ n + x % 2 ^ n * 2 ^ (32 - n)

/-- SHA-256 round constants. -/
def shaK : List Nat :=
  [1116352408, 1899447441, 3049323471, 3921009573,
   961987163, 1508970993, 2453635748, 2870763221,
   3624381080, 310598401, 607225278, 1426881987,
   1925078388, 2162078206, 2614888103, 3248222580,
   3835390401, 4022224774, 264347078, 604807628,
   770255983, 1249150122, 1555081692, 1996064986,
   2554220882, 2821834349, 2952996808, 3210313671,
   3336571891, 3584528711, 113926993, 338241895,
   666307205, 773529912, 1294757372, 1396182291,
   1695183700, 1986661051, 2177026350, 2456956037,
   2730485921, 2820302411, 3259730800, 3345764771,
   3516065817, 3600352804, 4094571909, 275423344,
   430227734, 506948616, 659060556, 883997877,
   958139571, 1322822218, 1537002063, 1747873779,
   1955562222, 2024104815, 2227730452, 2361852424,
   2428436474, 2756734187, 3204031479, 3329325298]

/-- SHA-256 initial hash state. -/
def shaH0 : List Nat :=
  [1779033703, 3144134277, 1013904242, 2773480762,
   1359893119, 2600822924, 528734635, 1541459225]

/-- Big-endian byte expansion of `v` into `n` bytes. -/
def bytesBE (n v : Nat) : List Nat :=
  (List.range n).map fun i => v / 2 ^ (8 * (n - 1 - i)) % 256

/-- SHA-256 message padding: append 0x80, zeros, and the 64-bit bit length. -/
def shaPad (m : List Nat) : List Nat :=
  let len := m.length
  let k := (120 - (len + 1) % 64) % 64
  m ++ [0x80] ++ List.replicate k 0 ++ bytesBE 8 (8 * len)

/-- Group bytes into big-endian 32-bit words. -/
def words32 : List Nat → List Nat
  | a :: b :: c :: d :: rest => (((a * 256 + b) * 256 + c) * 256 + d) :: words32 rest
  | _ => []

/-- Split a word list into blocks of 16 words, with explicit fuel. -/
def blocks16 : Nat → List Nat → List (List Nat)
  | 0, _ => []
  | _, [] => []
  | fuel + 1, l => l.take 16 :: blocks16 fuel (l.drop 16)

/-- Message-schedule extension step; the accumulator is kept reversed. -/
def shaExtend : Nat → List Nat → List Nat
  | 0, acc => acc
  | n + 1, acc =>
      let x2 := acc.getD 1 0
      let x7 := acc.getD 6 0
      let x15 := acc.getD 14 0
      let x16 := acc.getD 15 0
      let s0 := rotr 7 x15 ^^^ rotr 18 x15 ^^^ x15 >>> 3
      let s1 := rotr 17 x2 ^^^ rotr 19 x2 ^^^ x2 >>> 10
      shaExtend n (w32 (x16 + s0 + x7 + s1) :: acc)

/-- The eight-word working state of the compression function. -/
structure ShaState where
  a : Nat
  b : Nat
  c : Nat
  d : Nat
  e : Nat
  f : Nat
  g : Nat
  h : Nat

/-- SHA-256 compression rounds over the zipped schedule and constants. -/
def shaRounds : List (Nat × Nat) → ShaState → ShaState
  | [], st => st
  | (wv, kv) :: rest, st =>
      let bigS1 := rotr 6 st.e ^^^ rotr 11 st.e ^^^ rotr 25 st.e
      let ch := (st.e &&& st.f) ^^^ ((4294967295 - st.e) &&& st.g)
      let t1 := w32 (st.h + bigS1 + ch + kv + wv)
      let bigS0 := rotr 2 st.a ^^^ rotr 13 st.a ^^^ rotr 22 st.a
      let mj := (st.a &&& st.b) ^^^ (st.a &&& st.c) ^^^ (st.b &&& st.c)
      let t2 := w32 (bigS0 + mj)
      shaRounds rest
        ⟨w32 (t1 + t2), st.a, st.b, st.c, w32 (st.d + t1), st.e, st.f, st.g⟩

/-- Process one 16-word block against the running eight-word hash value. -/
def shaBlock (hv : List Nat) (blk : List Nat) : List Nat :=
  let sched := (shaExtend 48 blk.reverse).reverse
  let st0 : ShaState :=
    ⟨hv.getD 0 0, hv.getD 1 0, hv.getD 2 0, hv.getD 3 0,
     hv.getD 4 0, hv.getD 5 0, hv.getD 6 0, hv.getD 7 0⟩
  let st := shaRounds (sched.zip shaK) st0
  [w32 (hv.getD 0 0 + st.a), w32 (hv.getD 1 0 + st.b), w32 (hv.getD 2 0 + st.c),
   w32 (hv.getD 3 0 + st.d), w32 (hv.getD 4 0 + st.e), w32 (hv.getD 5 0 + st.f),
   w32 (hv.getD 6 0 + st.g), w32 (hv.getD 7 0 + st.h)]

/-- Lowercase hexadecimal digit for a value below 16. -/
def hexDigit (n : Nat) : Char :=
  if n < 10 then Char.ofNat (48 + n) else Char.ofNat (87 + n)

/-- Eight-digit lowercase hexadecimal rendering of a 32-bit word. -/
def hexWord (v : Nat) : List Char :=
  (List.range 8).map fun i => hexDigit (v / 16 ^ (7 - i) % 16)

/-- SHA-256 digest of the bytes of an ASCII string, in lowercase hex. -/
def sha256hex (s : String) : String :=
  let msg := shaPad (s.data.map Char.toNat)
  let ws := words32 msg
  let final := (blocks16 ws.length ws).foldl shaBlock shaH0
  ⟨(final.map hexWord).flatten⟩

/-! ## String and path helpers (node primitives used by the source) -/

/-- Split a character list at the first occurrence of `c`: the part
before it, and the part after it when `c` occurs. -/
def splitFirst (c : Char) : List Char → List Char × Option (List Char)
  | [] => ([], none)
  | x :: xs =>
      if x = c then ([], some xs)
      else
        let r := splitFirst c xs
        (x :: r.1, r.2)

/-- Split a character list at the end of a URL host: the host part, and
the remainder beginning with the slash or question mark when present. -/
def splitHostEnd : List Char → List Char × List Char
  | [] => ([], [])
  | x :: xs =>
      if x = '/' ∨ x = '?' then ([], x :: xs)
      else
        let r := splitHostEnd xs
        (x :: r.1, r.2)

/-- The suffix of a character list starting at the last dot, when a dot
occurs at all. -/
def fromLastDot : List Char → Option (List Char)
  | [] => none
  | x :: xs =>
      match fromLastDot xs with
      | some r => some r
      | none => if x = '.' then some (x :: xs) else none

/-- The node `path.basename` on posix paths: trailing slashes are
dropped, then the segment after the last remaining slash is taken. -/
def jsBasename (p : String) : String :=
  let r := p.data.reverse.dropWhile (· = '/')
  ⟨(r.takeWhile (· ≠ '/')).reverse⟩

/-- Whether a path string is absolute, that is, starts with a slash. -/
def startsSlash (s : String) : Bool := s.data.head? = some '/'

/-- The source `isUrl` helper: the string starts with an http or https
scheme prefix. -/
def isUrl (s : String) : Bool :=
  "http://".data.isPrefixOf s.data || "https://".data.isPrefixOf s.data

/-- The node `path.resolve` primitive, modelled for already normalized
inputs: an absolute path is returned unchanged, a relative one is
joined onto the current working directory. -/
def resolveP (cwd p : String) : String :=
  if startsSlash p then p else cwd ++ "/" ++ p

/-- A parsed URL as produced by the node `URL` constructor, restricted
to the fields the source reads: host, pathname and search.  The
fragment is dropped by parsing; an empty pathname normalizes to a
single slash; a nonempty query is rendered with its leading question
mark, an empty one as the empty string. -/
structure UrlParts where
  host : String
  pathname : String
  search : String
  deriving DecidableEq

/-- The node `new URL(url)` primitive, modelled for http and https
URLs; any other input makes the constructor throw, modelled as `none`.
The fragment is stripped first; `parseTail` parses the remainder into
host, pathname and search. -/
def parseTail (noFrag : List Char) : Option UrlParts :=
  let hs := splitHostEnd noFrag
  if hs.1.isEmpty then none
  else
    match hs.2 with
    | '?' :: qs => some ⟨⟨hs.1⟩, "/", if qs.isEmpty then "" else ⟨'?' :: qs⟩⟩
    | ps =>
        let pq := splitFirst '?' ps
        let pathname : String := if pq.1.isEmpty then "/" else ⟨pq.1⟩
        let search : String :=
          match pq.2 with
          | none => ""
          | some qs => if qs.isEmpty then "" else ⟨'?' :: qs⟩
        some ⟨⟨hs.1⟩, pathname, search⟩

def parseUrl (url : String) : Option UrlParts :=
  let rest? : Option (List Char) :=
    if "http://".data.isPrefixOf url.data then some (url.data.drop 7)
    else if "https://".data.isPrefixOf url.data then some (url.data.drop 8)
    else none
  match rest? with
  | none => none
  | some rest => parseTail (splitFirst '#' rest).1

/-! ## The world state: filesystem, network, process environment -/

/-- Outcome of the transport primitive for one URL: a successful body,
or a failure with an error message and the bytes already written to the
destination when the stream broke mid-transfer. -/
inductive FetchResult where
  | ok (content : String)
  | fail (msg : String) (halfBody : Option String)
  deriving DecidableEq

/-- A filesystem: contents indexed by path. -/
def Fs : Type := String → Option String

/-- Write (create or overwrite) one file. -/
def fsWrite (p c : String) (fs : Fs) : Fs :=
  fun q => if q = p then some c else fs q

/-- Remove one file. -/
def fsErase (p : String) (fs : Fs) : Fs :=
  fun q => if q = p then none else fs q

/-- The world a run operates on.  `fetchCount` counts invocations of
the transport primitive, so that claims about the number of network
fetches are statable. -/
structure World where
  fs : Fs
  net : String → FetchResult
  fetchCount : Nat
  cwd : String
  home : String
  envCacheDir : Option String

/-! ## storage.ts: directory constants, MIME table, the File class -/

/-- The `StorageDir.TEMP` constant: temporary storage, cleaned between
runs. -/
def StorageDirTEMP : String := "/app/tmp"

/-- The `StorageDir.DATA` constant. -/
def StorageDirDATA : String := "/app/data"

/-- The `StorageDir.CACHE` constant. -/
def StorageDirCACHE : String := "/app/cache"

/-- The static `MIME_TYPES` table of `storage.ts`, in source order. -/
def MIME_TYPES : List (String × String) :=
  [(".jpg", "image/jpeg"), (".jpeg", "image/jpeg"), (".png", "image/png"),
   (".gif", "image/gif"), (".webp", "image/webp"), (".svg", "image/svg+xml"),
   (".mp4", "video/mp4"), (".webm", "video/webm"), (".mov", "video/quicktime"),
   (".mp3", "audio/mpeg"), (".wav", "audio/wav"), (".ogg", "audio/ogg"),
   (".flac", "audio/flac"), (".aac", "audio/aac"),
   (".pdf", "application/pdf"), (".json", "application/json"),
   (".txt", "text/plain"), (".csv", "text/csv"), (".html", "text/html"),
   (".zip", "application/zip"), (".tar", "application/x-tar"),
   (".gz", "application/gzip")]

/-- The source `guessContentType`: `filePath.slice(filePath.lastIndexOf("."))`
lowercased, looked up in `MIME_TYPES`.  When the path has no dot,
`lastIndexOf` returns -1 and `slice(-1)` yields the final character of
the string, exactly as in the source. -/
def guessContentType (filePath : String) : Option String :=
  let ext : List Char :=
    match fromLastDot filePath.data with
    | some suf => suf
    | none => filePath.data.drop (filePath.data.length - 1)
  MIME_TYPES.lookup ⟨ext.map Char.toLower⟩

/-- JS truthiness of an optional string field: present and nonempty. -/
def truthyS : Option String → Bool
  | none => false
  | some s => s ≠ ""

instance {e a : Type} [DecidableEq e] [DecidableEq a] : DecidableEq (Except e a) := fun x y =>
  match x, y with
  | .ok v, .ok v2 =>
      if h : v = v2 then isTrue (by rw [h]) else isFalse (by intro hc; injection hc; contradiction)
  | .error v, .error v2 =>
      if h : v = v2 then isTrue (by rw [h]) else isFalse (by intro hc; injection hc; contradiction)
  | .ok _, .error _ => isFalse (by intro hc; exact Except.noConfusion hc)
  | .error _, .ok _ => isFalse (by intro hc; exact Except.noConfusion hc)

/-- The `File` class fields. -/
structure File where
  uri : Option String
  path : Option String
  contentType : Option String
  size : Option Nat
  filename : Option String
  deriving DecidableEq

/-- The normalized `FileOptions` record fed to the private constructor. -/
structure FileOptions where
  uri : Option String
  path : Option String
  contentType : Option String
  size : Option Nat
  filename : Option String

/-- A descriptor input to `File.from`, carrying both the snake-case and
the camel-case content type spellings a JS object may hold. -/
structure FileDataInput where
  uri : Option String
  path : Option String
  content_type : Option String
  contentType : Option String
  size : Option Nat
  filename : Option String
  deriving DecidableEq

/-- The union of shapes `File.from` accepts: a string, a descriptor
object, or an existing `File` instance. -/
inductive FromInput where
  | str (s : String)
  | data (d : FileDataInput)
  | file (f : File)
  deriving DecidableEq

/-- The private `_populateMetadata` method: a no-op unless the path is
truthy and the file exists; then content type (when not already truthy)
is inferred from the extension, size (when nullish) is read from the
filesystem, and filename (when not already truthy) is the basename. -/
def populateMetadata (fs : Fs) (f : File) : File :=
  match f.path with
  | none => f
  | some p =>
      if p = "" then f
      else
        match fs p with
        | none => f
        | some content =>
            { f with
              contentType := if truthyS f.contentType then f.contentType else guessContentType p
              size := if f.size.isSome then f.size else some content.length
              filename := if truthyS f.filename then f.filename else some (jsBasename p) }

/-- The static `File.getCacheDir`: the `FILE_CACHE_DIR` environment
value when truthy, else a fixed location under the user home.
Directory creation is a no-op in the model. -/
def getCacheDir (w : World) : String :=
  match w.envCacheDir with
  | some e => if e = "" then w.home ++ "/.cache/inferencesh/files" else e
  | none => w.home ++ "/.cache/inferencesh/files"

/-- The hash + filename cache layout shared by `_getCachePath` and the
download utility: the sha256 of host ++ pathname ++ search truncated to
12 hex characters names the subdirectory, the basename of the pathname
(or the fixed fallback) names the file. -/
def cacheComponents (u : UrlParts) : String :=
  u.host ++ u.pathname ++ (if u.search ≠ "" then u.search else "")

/-- The truncated cache hash of a parsed URL. -/
def cacheHash (u : UrlParts) : String :=
  (sha256hex (cacheComponents u)).take 12

/-- The filename component of the cache layout. -/
def cacheFname (u : UrlParts) : String :=
  if jsBasename u.pathname = "" then "download" else jsBasename u.pathname

/-- The cache path of a parsed URL below a given root directory. -/
def cachePathIn (root : String) (u : UrlParts) : String :=
  root ++ "/" ++ cacheHash u ++ "/" ++ cacheFname u

/-- The private `_getCachePath` method: parse the URL (the node `URL`
constructor throws on an invalid one, modelled as `none`) and build the
cache path below `getCacheDir`. -/
def getCachePath (w : World) (url : String) : Option String :=
  (parseUrl url).map fun u => cachePathIn (getCacheDir w) u

/-- The transport primitive `downloadToFile` of the source, as the spec
treats it: write the full body at the destination on success; on
failure leave whatever half-written bytes the stream produced.  Either
way one network fetch is consumed.  Redirected requests are inside the
primitive. -/
def downloadToFile (w : World) (url dest : String) : World × Option String :=
  match w.net url with
  | .ok c =>
      ({ w with fs := fsWrite dest c w.fs, fetchCount := w.fetchCount + 1 }, none)
  | .fail msg halfBody =>
      ({ w with
          fs := match halfBody with
                | some hb => fsWrite dest hb w.fs
                | none => w.fs
          fetchCount := w.fetchCount + 1 }, some msg)

/-- The `renameSync` primitive: move the contents at `src` to `dst`. -/
def fsRename (src dst : String) (fs : Fs) : Fs :=
  match fs src with
  | some c => fsWrite dst c (fsErase src fs)
  | none => fs

/-- The private `_downloadUrl` method: cache hit short-circuits; a miss
fetches to the sibling `.tmp` path, renames it over the target on
success, and on failure best-effort deletes the temporary file (a
deletion error is swallowed) and rethrows with the URL and cause in the
message.  The result is the world together with the established local
path or the error message. -/
def downloadUrl (w : World) (url : String) : World × Except String String :=
  match getCachePath w url with
  | none => (w, .error "Invalid URL")
  | some cachePath =>
      if (w.fs cachePath).isSome then (w, .ok cachePath)
      else
        let tmpPath := cachePath ++ ".tmp"
        match downloadToFile w url tmpPath with
        | (w1, none) =>
            ({ w1 with fs := fsRename tmpPath cachePath w1.fs }, .ok cachePath)
        | (w1, some msg) =>
            ({ w1 with fs := fsErase tmpPath w1.fs },
             .error ("Failed to download " ++ url ++ ": " ++ msg))

/-- Normalization of a non-instance `File.from` input into options: a
string becomes the uri; a descriptor keeps its fields, the snake-case
content type taking precedence over the camel-case one through the
nullish-coalescing operator. -/
def normalizeOptions : FromInput → FileOptions
  | .str s => ⟨some s, none, none, none, none⟩
  | .data d => ⟨d.uri, d.path, match d.content_type with
                               | some ct => some ct
                               | none => d.contentType,
                d.size, d.filename⟩
  | .file f => ⟨f.uri, f.path, f.contentType, f.size, f.filename⟩

/-- The static `File.from`: an existing instance is copied field for
field and returned at once; otherwise the input is normalized, rejected
when neither uri nor path is truthy, the uri is resolved (downloading
recognized remote schemes, treating anything else as a local path), and
finally the path is made absolute and metadata populated — or the
trailing defensive error is thrown when no truthy path was established. -/
def resolveUriStep (w : World) (f : File) : World × Except String File :=
  match f.uri with
  | some u =>
      if u = "" then (w, .ok f)
      else if isUrl u then
        match downloadUrl w u with
        | (w1, .ok p) => (w1, .ok { f with path := some p })
        | (w1, .error e) => (w1, .error e)
      else (w, .ok { f with path := some (resolveP w.cwd u) })
  | none => (w, .ok f)

/-- The closing step of `File.from`: when a truthy path was established,
make it absolute and populate metadata; otherwise throw the trailing
defensive error. -/
def finishFrom (cwd : String) (w1 : World) (f1 : File) : World × Except String File :=
  match f1.path with
  | some p =>
      if p = "" then
        (w1, .error "Either \x27uri\x27 or \x27path\x27 must be provided and be valid")
      else
        (w1, .ok (populateMetadata w1.fs { f1 with path := some (resolveP cwd p) }))
  | none => (w1, .error "Either \x27uri\x27 or \x27path\x27 must be provided and be valid")

def fileFrom (w : World) (input : FromInput) : World × Except String File :=
  match input with
  | .file g => (w, .ok ⟨g.uri, g.path, g.contentType, g.size, g.filename⟩)
  | other =>
      let o := normalizeOptions other
      if truthyS o.uri = false ∧ truthyS o.path = false then
        (w, .error "Either \x27uri\x27 or \x27path\x27 must be provided")
      else
        match resolveUriStep w ⟨o.uri, o.path, o.contentType, o.size, o.filename⟩ with
        | (w1, .error e) => (w1, .error e)
        | (w1, .ok f1) => finishFrom w.cwd w1 f1

/-- The static `File.fromPath`: synchronous, no download — resolve the
path to absolute form and populate metadata. -/
def fileFromPath (w : World) (localPath : String) : File :=
  populateMetadata w.fs ⟨none, some (resolveP w.cwd localPath), none, none, none⟩

/-- A JSON field value in the serialized record. -/
inductive JVal where
  | s (v : String)
  | n (v : Nat)
  deriving DecidableEq

/-- The `toJSON` method: the record holds, in source order, exactly the
fields that are not nullish, under the fixed snake-case keys. -/
def toJSON (f : File) : List (String × JVal) :=
  (match f.uri with | some u => [("uri", JVal.s u)] | none => []) ++
  (match f.path with | some p => [("path", JVal.s p)] | none => []) ++
  (match f.contentType with | some c => [("content_type", JVal.s c)] | none => []) ++
  (match f.size with | some n => [("size", JVal.n n)] | none => []) ++
  (match f.filename with | some fn => [("filename", JVal.s fn)] | none => [])

/-! ## download.ts: the standalone download utility -/

/-- The target path the download utility computes inside the chosen
directory: the same hash subdirectory and filename as the File cache. -/
def outputPathIn (dir : String) (u : UrlParts) : String :=
  dir ++ "/" ++ cacheHash u ++ "/" ++ cacheFname u

/-- The `download` utility of `download.ts`: compute the output path in
the chosen directory; return it at once when the file exists there and
the directory is not `StorageDir.TEMP`; otherwise resolve the URL
through `File.from` (which consults the File cache) and copy the
resolved file onto the output path. -/
def download (w : World) (url dir : String) : World × Except String String :=
  match parseUrl url with
  | none => (w, .error "Invalid URL")
  | some u =>
      let outputPath := outputPathIn dir u
      if (w.fs outputPath).isSome ∧ dir ≠ StorageDirTEMP then
        (w, .ok outputPath)
      else
        match fileFrom w (.str url) with
        | (w1, .error e) => (w1, .error e)
        | (w1, .ok f) =>
            match f.path with
            | some p =>
                if p = "" then (w1, .error ("Failed to download " ++ url))
                else
                  match w1.fs p with
                  | some c => ({ w1 with fs := fsWrite outputPath c w1.fs }, .ok outputPath)
                  | none => (w1, .error "ENOENT: copyFileSync source missing")
            | none => (w1, .error ("Failed to download " ++ url))

/-! ## Filesystem operation traces of the fetch path -/

/-- One primitive filesystem mutation performed by the fetch path. -/
inductive FsOp where
  | write (p c : String)
  | rename (src dst : String)
  | unlink (p : String)

/-- Apply one primitive operation to a filesystem. -/
def applyOp (fs : Fs) : FsOp → Fs
  | .write p c => fsWrite p c fs
  | .rename src dst => fsRename src dst fs
  | .unlink p => fsErase p fs

/-- Apply a sequence of primitive operations from the left. -/
def applyOps (fs : Fs) (ops : List FsOp) : Fs :=
  ops.foldl applyOp fs

/-- The sequence of filesystem mutations `_downloadUrl` performs on a
given world: nothing on a cache hit; write the temporary file then
rename it over the target on fetch success; write whatever partial
bytes the stream produced and then unlink the temporary path on fetch
failure. -/
def downloadUrlOps (w : World) (url : String) : List FsOp :=
  match getCachePath w url with
  | none => []
  | some cachePath =>
      if (w.fs cachePath).isSome then []
      else
        let tmpPath := cachePath ++ ".tmp"
        match w.net url with
        | .ok c => [.write tmpPath c, .rename tmpPath cachePath]
        | .fail _ (some hb) => [.write tmpPath hb, .unlink tmpPath]
        | .fail _ none => [.unlink tmpPath]

/-! ## Supporting lemmas -/

theorem lookup_eq_none_of_forall_ne {β : Type} (s : String) (l : List (String × β))
    (h : ∀ kv ∈ l, s ≠ kv.1) : l.lookup s = none := by
  induction l with
  | nil => rfl
  | cons kv rest ih =>
      have hne : s ≠ kv.1 := h kv (by simp)
      have : (s == kv.1) = false := beq_eq_false_iff_ne.mpr hne
      simp only [List.lookup, this]
      exact ih fun x hx => h x (by simp [hx])

theorem mimeLookup_short_eq_none (s : String) (h : s.length ≤ 1) :
    MIME_TYPES.lookup s = none := by
  apply lookup_eq_none_of_forall_ne
  intro kv hm
  simp only [MIME_TYPES, List.mem_cons, List.not_mem_nil, or_false] at hm
  rcases hm with rfl | rfl | rfl | rfl | rfl | rfl | rfl | rfl | rfl | rfl | rfl |
    rfl | rfl | rfl | rfl | rfl | rfl | rfl | rfl | rfl | rfl | rfl <;>
    (rintro rfl; exact absurd h (by decide))

theorem truthyS_isSome (o : Option String) (h : truthyS o = true) : o.isSome := by
  cases o <;> simp_all [truthyS]

theorem self_ne_append_tmp (s : String) : s ≠ s ++ ".tmp" := by
  intro h
  have h2 := congrArg String.length h
  rw [String.length_append] at h2
  have h4 : (".tmp" : String).length = 4 := rfl
  omega

theorem startsSlash_append (a b : String) (h : startsSlash a = true) :
    startsSlash (a ++ b) = true := by
  unfold startsSlash at h ⊢
  rw [String.data_append]
  cases hd : a.data with
  | nil => rw [hd] at h; simp at h
  | cons x xs => rw [hd] at h; simpa using h

theorem startsSlash_ne_empty (s : String) (h : startsSlash s = true) : s ≠ "" := by
  intro he
  rw [he] at h
  simp [startsSlash] at h

theorem resolveP_abs (cwd p : String) (h : startsSlash p = true) :
    resolveP cwd p = p := by
  simp [resolveP, h]

theorem parseUrl_isUrl (url : String) (u : UrlParts) (h : parseUrl url = some u) :
    isUrl url = true := by
  unfold parseUrl at h
  unfold isUrl
  by_cases h1 : "http://".data.isPrefixOf url.data
  · simp [h1]
  · by_cases h2 : "https://".data.isPrefixOf url.data
    · simp [h2]
    · simp [h1, h2] at h

theorem parseUrl_ne_empty (url : String) (u : UrlParts) (h : parseUrl url = some u) :
    url ≠ "" := by
  intro he
  subst he
  have := parseUrl_isUrl "" u h
  simp [isUrl, List.isPrefixOf] at this

theorem getCachePath_of_parse (w : World) (url : String) (u : UrlParts)
    (h : parseUrl url = some u) :
    getCachePath w url = some (cachePathIn (getCacheDir w) u) := by
  simp [getCachePath, h]

theorem cachePathIn_startsSlash (root : String) (u : UrlParts)
    (h : startsSlash root = true) : startsSlash (cachePathIn root u) = true := by
  unfold cachePathIn
  exact startsSlash_append _ _ (startsSlash_append _ _ (startsSlash_append _ _
    (startsSlash_append _ _ h)))

/-! ## C9: content-type inference -/

/-- Content-type inference as the spec words it: the extension of the
path — the suffix starting at the last dot, when a dot occurs at all —
is lowercased and looked up in the fixed table; a path with no dot has
no extension and yields no content type. -/
def specContentType (filePath : String) : Option String :=
  match fromLastDot filePath.data with
  | some suf => MIME_TYPES.lookup ⟨suf.map Char.toLower⟩
  | none => none

/-- C9: for every file path, content-type inference agrees with the
lowercased-extension lookup in the static table and is total (never an
error); a path ending in .png maps to image/png, and an unrecognized or
missing extension leaves the content type unset. -/
theorem guessContentType_matches_spec :
    (∀ p : String, guessContentType p = specContentType p) ∧
    guessContentType "photo.png" = some "image/png" ∧
    guessContentType "PHOTO.PNG" = some "image/png" ∧
    guessContentType "photo.xyz" = none ∧
    guessContentType "noext" = none := by
  refine ⟨?_, by decide, by decide, by decide, by decide⟩
  intro p
  unfold guessContentType specContentType
  cases hld : fromLastDot p.data with
  | some suf => simp
  | none =>
      simp only
      apply mimeLookup_short_eq_none
      show (List.map Char.toLower (p.data.drop (p.data.length - 1))).length ≤ 1
      rw [List.length_map, List.length_drop]
      omega

/-! ## C8: serialization omits unset fields -/

/-- C8: the serialized record carries exactly the set fields under the
fixed keys, omitting every unset field; a reference built from only a
local path to an existing file with a recognized extension serializes
to exactly path, content_type, size and filename, with no uri key. -/
theorem toJSON_exact_fields :
    (∀ f : File,
      (("uri" ∈ (toJSON f).map Prod.fst) ↔ f.uri.isSome) ∧
      (("path" ∈ (toJSON f).map Prod.fst) ↔ f.path.isSome) ∧
      (("content_type" ∈ (toJSON f).map Prod.fst) ↔ f.contentType.isSome) ∧
      (("size" ∈ (toJSON f).map Prod.fst) ↔ f.size.isSome) ∧
      (("filename" ∈ (toJSON f).map Prod.fst) ↔ f.filename.isSome) ∧
      (∀ k ∈ (toJSON f).map Prod.fst,
        k = "uri" ∨ k = "path" ∨ k = "content_type" ∨ k = "size" ∨ k = "filename")) ∧
    toJSON
      (fileFromPath
        ⟨fun p => if p = "/t/img.png" then some "12345" else none,
         fun _ => .fail "offline" none, 0, "/cwd", "/home/u", none⟩
        "/t/img.png") =
      [("path", JVal.s "/t/img.png"), ("content_type", JVal.s "image/png"),
       ("size", JVal.n 5), ("filename", JVal.s "img.png")] := by
  constructor
  · intro f
    obtain ⟨u, p, c, sz, fn⟩ := f
    cases u <;> cases p <;> cases c <;> cases sz <;> cases fn <;>
      refine ⟨by simp [toJSON], by simp [toJSON], by simp [toJSON],
              by simp [toJSON], by simp [toJSON], ?_⟩ <;>
      (intro k hk; simp only [toJSON, List.map, List.append_nil, List.nil_append,
        List.append_assoc, List.mem_cons, List.mem_append, List.not_mem_nil,
        or_false, false_or] at hk <;> tauto)
  · decide

/-- A concrete world with an empty filesystem and a failing network,
used to instantiate hypothesis-bearing theorems. -/
def wNone : World :=
  ⟨fun _ => none, fun _ => .fail "offline" none, 0, "/cwd", "/home/u", none⟩

/-! ## C7: InvalidInput before any I/O -/

/-- C7: when neither a locator nor a path can be determined from the
input — an empty descriptor, or descriptor fields that are absent or
empty, or the empty string — File.from fails with the InvalidInput
error and the world is returned untouched: no filesystem or network
access happens, and the fetch counter is unchanged. -/
theorem fileFrom_invalid_input :
    (∀ (w : World) (d : FileDataInput),
      truthyS d.uri = false → truthyS d.path = false →
      fileFrom w (.data d) = (w, .error "Either \x27uri\x27 or \x27path\x27 must be provided")) ∧
    (∀ w : World, fileFrom w (.str "") =
      (w, .error "Either \x27uri\x27 or \x27path\x27 must be provided")) := by
  constructor
  · intro w d h1 h2
    simp [fileFrom, normalizeOptions, h1, h2]
  · intro w
    simp [fileFrom, normalizeOptions, truthyS]

/-- Instantiation of the InvalidInput theorem at the empty descriptor. -/
theorem fileFrom_invalid_input_witness :
    truthyS (FileDataInput.mk none none none none none none).uri = false ∧
    truthyS (FileDataInput.mk none none none none none none).path = false ∧
    fileFrom wNone (.data ⟨none, none, none, none, none, none⟩) =
      (wNone, .error "Either \x27uri\x27 or \x27path\x27 must be provided") :=
  ⟨rfl, rfl, fileFrom_invalid_input.1 wNone ⟨none, none, none, none, none, none⟩ rfl rfl⟩

/-! ## C4: the cache key and cache path -/

theorem splitFirst_not_mem (c : Char) (l : List Char) (h : c ∉ l) :
    splitFirst c l = (l, none) := by
  induction l with
  | nil => rfl
  | cons x xs ih =>
      have hxc : ¬(x = c) := fun e => h (e ▸ List.mem_cons_self x xs)
      simp [splitFirst, hxc, ih fun hm => h (List.mem_cons_of_mem _ hm)]

theorem splitFirst_append_not_mem (c : Char) (l m : List Char) (h : c ∉ l) :
    splitFirst c (l ++ c :: m) = (l, some m) := by
  induction l with
  | nil => simp [splitFirst]
  | cons x xs ih =>
      have hxc : ¬(x = c) := fun e => h (e ▸ List.mem_cons_self x xs)
      simp [splitFirst, hxc, ih fun hm => h (List.mem_cons_of_mem _ hm)]

theorem isPrefixOf_append_cons (P : List Char) (c : Char) (hP : c ∉ P) :
    ∀ (l m : List Char), P.isPrefixOf (l ++ c :: m) = P.isPrefixOf l := by
  induction P with
  | nil => intro l m; simp [List.isPrefixOf]
  | cons p ps ih =>
      intro l m
      have hpc : ¬(p = c) := fun e => hP (e ▸ List.mem_cons_self p ps)
      cases l with
      | nil =>
          simp only [List.nil_append, List.isPrefixOf]
          have : (p == c) = false := beq_eq_false_iff_ne.mpr hpc
          simp [this]
      | cons a as =>
          simp only [List.cons_append, List.isPrefixOf]
          congr 1
          exact ih (fun hm => hP (List.mem_cons_of_mem _ hm)) as m

theorem parseUrl_fragment (url frag : String) (h : '#' ∉ url.data) :
    parseUrl (url ++ "#" ++ frag) = parseUrl url := by
  have hdata : (url ++ "#" ++ frag).data = url.data ++ '#' :: frag.data := by
    rw [String.data_append, String.data_append, List.append_assoc]
    rfl
  unfold parseUrl
  rw [hdata, isPrefixOf_append_cons _ _ (by decide), isPrefixOf_append_cons _ _ (by decide)]
  by_cases h1 : "http://".data.isPrefixOf url.data = true
  · simp only [h1, if_true]
    have hlen7 : ("http://".data).length = 7 := rfl
    have hlen : 7 ≤ url.data.length := by
      have := (List.isPrefixOf_iff_prefix.mp h1).length_le
      omega
    rw [List.drop_append_of_le_length hlen]
    have hnm : '#' ∉ url.data.drop 7 := fun hm => h (List.mem_of_mem_drop hm)
    rw [splitFirst_append_not_mem _ _ _ hnm, splitFirst_not_mem _ _ hnm]
  · rw [Bool.not_eq_true] at h1
    simp only [h1, Bool.false_eq_true, if_false]
    by_cases h2 : "https://".data.isPrefixOf url.data = true
    · simp only [h2, if_true]
      have hlen8 : ("https://".data).length = 8 := rfl
      have hlen : 8 ≤ url.data.length := by
        have := (List.isPrefixOf_iff_prefix.mp h2).length_le
        omega
      rw [List.drop_append_of_le_length hlen]
      have hnm : '#' ∉ url.data.drop 8 := fun hm => h (List.mem_of_mem_drop hm)
      rw [splitFirst_append_not_mem _ _ _ hnm, splitFirst_not_mem _ _ hnm]
    · rw [Bool.not_eq_true] at h2
      simp [h1, h2]

set_option maxRecDepth 100000 in
/-- C4: the cache key is the sha256 of host ++ path ++ query truncated
to 12 hex characters and the cache path is root/key/basename with the
fixed fallback filename when the locator path has no segment; for the
reference locator the key is sha256 of the stated concatenation, whose
truncation is the stated constant; locators differing only in a
trailing fragment share the cache path. -/
theorem cacheKey_and_path_spec (w : World) (root : String)
    (hroot : getCacheDir w = root) :
    getCachePath w "https://example.com/dir/model.bin?v=2" =
      some (root ++ "/" ++ (sha256hex "example.com/dir/model.bin?v=2").take 12 ++
            "/" ++ "model.bin") ∧
    (sha256hex "example.com/dir/model.bin?v=2").take 12 = "06ef81cb31ac" ∧
    getCachePath w "https://example.com" =
      some (root ++ "/" ++ (sha256hex "example.com/").take 12 ++ "/" ++ "download") ∧
    (∀ url frag : String, '#' ∉ url.data →
      getCachePath w (url ++ "#" ++ frag) = getCachePath w url) := by
  refine ⟨?_, by decide, ?_, ?_⟩
  · have hp : parseUrl "https://example.com/dir/model.bin?v=2" =
        some ⟨"example.com", "/dir/model.bin", "?v=2"⟩ := by decide
    rw [getCachePath_of_parse _ _ _ hp, hroot]
    have hh : cacheHash ⟨"example.com", "/dir/model.bin", "?v=2"⟩ =
        (sha256hex "example.com/dir/model.bin?v=2").take 12 := by decide
    have hf : cacheFname ⟨"example.com", "/dir/model.bin", "?v=2"⟩ = "model.bin" := by
      decide
    rw [cachePathIn, hh, hf]
  · have hp : parseUrl "https://example.com" = some ⟨"example.com", "/", ""⟩ := by decide
    rw [getCachePath_of_parse _ _ _ hp, hroot]
    have hh : cacheHash ⟨"example.com", "/", ""⟩ = (sha256hex "example.com/").take 12 := by
      decide
    have hf : cacheFname ⟨"example.com", "/", ""⟩ = "download" := by decide
    rw [cachePathIn, hh, hf]
  · intro url frag hfr
    unfold getCachePath
    rw [parseUrl_fragment _ _ hfr]

set_option maxRecDepth 100000 in
/-- Instantiation of the cache key theorem at a concrete world. -/
theorem cacheKey_and_path_spec_witness :
    getCacheDir wNone = "/home/u/.cache/inferencesh/files" ∧
    (getCachePath wNone "https://example.com/dir/model.bin?v=2" =
      some ("/home/u/.cache/inferencesh/files" ++ "/" ++
            (sha256hex "example.com/dir/model.bin?v=2").take 12 ++ "/" ++ "model.bin") ∧
    (sha256hex "example.com/dir/model.bin?v=2").take 12 = "06ef81cb31ac" ∧
    getCachePath wNone "https://example.com" =
      some ("/home/u/.cache/inferencesh/files" ++ "/" ++
            (sha256hex "example.com/").take 12 ++ "/" ++ "download") ∧
    (∀ url frag : String, '#' ∉ url.data →
      getCachePath wNone (url ++ "#" ++ frag) = getCachePath wNone url)) :=
  ⟨rfl, cacheKey_and_path_spec wNone "/home/u/.cache/inferencesh/files" rfl⟩

/-! ## Pointwise filesystem lemmas -/

theorem fsWrite_same (p c : String) (fs : Fs) : fsWrite p c fs p = some c := by
  simp [fsWrite]

theorem fsWrite_other (p c : String) (fs : Fs) (q : String) (h : q ≠ p) :
    fsWrite p c fs q = fs q := by
  simp [fsWrite, h]

theorem fsErase_same (p : String) (fs : Fs) : fsErase p fs p = none := by
  simp [fsErase]

theorem fsErase_other (p : String) (fs : Fs) (q : String) (h : q ≠ p) :
    fsErase p fs q = fs q := by
  simp [fsErase, h]

/-! ## Behavior of the guarded fetch -/

theorem downloadUrl_hit (w : World) (url cp c : String)
    (hcp : getCachePath w url = some cp) (hhit : w.fs cp = some c) :
    downloadUrl w url = (w, .ok cp) := by
  simp [downloadUrl, hcp, hhit]

theorem downloadUrl_miss_ok (w : World) (url cp c : String)
    (hcp : getCachePath w url = some cp) (hmiss : w.fs cp = none)
    (hnet : w.net url = .ok c) :
    downloadUrl w url =
      ({ w with fs := fsRename (cp ++ ".tmp") cp (fsWrite (cp ++ ".tmp") c w.fs),
                fetchCount := w.fetchCount + 1 }, .ok cp) := by
  simp [downloadUrl, downloadToFile, hcp, hmiss, hnet]

theorem fsRename_write_self (tmp cp c : String) (fs : Fs) :
    fsRename tmp cp (fsWrite tmp c fs) cp = some c := by
  simp [fsRename, fsWrite_same, fsWrite]

/-! ## C3: sequential idempotence of remote resolution -/

/-- C3: with the cache entry initially absent and the transport able to
deliver the body, resolving a remote locator performs one fetch and
commits the cache path; resolving again against the resulting world is
a pure cache hit — the world (hence the fetch count) is unchanged and
the same path is returned. -/
theorem downloadUrl_idempotent (w : World) (url cp c : String)
    (hcp : getCachePath w url = some cp) (hmiss : w.fs cp = none)
    (hnet : w.net url = .ok c) :
    ((downloadUrl w url).2 = .ok cp ∧
     (downloadUrl w url).1.fetchCount = w.fetchCount + 1) ∧
    downloadUrl (downloadUrl w url).1 url = ((downloadUrl w url).1, .ok cp) := by
  have h1 := downloadUrl_miss_ok w url cp c hcp hmiss hnet
  refine ⟨⟨by rw [h1], by rw [h1]⟩, ?_⟩
  rw [h1]
  exact downloadUrl_hit _ _ _ c hcp (fsRename_write_self _ _ _ _)

/-- A concrete world with an empty filesystem whose network serves one
URL. -/
def wNet : World :=
  ⟨fun _ => none,
   fun u => if u = "http://h/f.bin" then .ok "DATA" else .fail "offline" none,
   0, "/cwd", "/home/u", none⟩

set_option maxRecDepth 1000000 in
/-- Instantiation of the idempotence theorem at a concrete world. -/
theorem downloadUrl_idempotent_witness :
    getCachePath wNet "http://h/f.bin" =
      some (cachePathIn "/home/u/.cache/inferencesh/files" ⟨"h", "/f.bin", ""⟩) ∧
    wNet.fs (cachePathIn "/home/u/.cache/inferencesh/files" ⟨"h", "/f.bin", ""⟩) = none ∧
    wNet.net "http://h/f.bin" = .ok "DATA" ∧
    (((downloadUrl wNet "http://h/f.bin").2 =
        .ok (cachePathIn "/home/u/.cache/inferencesh/files" ⟨"h", "/f.bin", ""⟩) ∧
      (downloadUrl wNet "http://h/f.bin").1.fetchCount = wNet.fetchCount + 1) ∧
     downloadUrl (downloadUrl wNet "http://h/f.bin").1 "http://h/f.bin" =
       ((downloadUrl wNet "http://h/f.bin").1,
        .ok (cachePathIn "/home/u/.cache/inferencesh/files" ⟨"h", "/f.bin", ""⟩))) :=
  ⟨by decide, rfl, by decide,
   downloadUrl_idempotent wNet "http://h/f.bin"
     (cachePathIn "/home/u/.cache/inferencesh/files" ⟨"h", "/f.bin", ""⟩) "DATA"
     (by decide) rfl (by decide)⟩


theorem downloadUrl_miss_fail (w : World) (url cp msg : String) (hb : Option String)
    (hcp : getCachePath w url = some cp) (hmiss : w.fs cp = none)
    (hnet : w.net url = .fail msg hb) :
    downloadUrl w url =
      ({ w with
          fs := fsErase (cp ++ ".tmp")
            (match hb with
             | some half => fsWrite (cp ++ ".tmp") half w.fs
             | none => w.fs),
          fetchCount := w.fetchCount + 1 },
       .error ("Failed to download " ++ url ++ ": " ++ msg)) := by
  cases hb <;> simp [downloadUrl, downloadToFile, hcp, hmiss, hnet]

/-! ## C6: failed transfers clean up and propagate -/

/-- C6: when the transport fails for a locator whose cache entry is
absent, the resolution consumes exactly one fetch (no retry), removes
the temporary path best-effort — `hb` ranges over both a half-written
temporary file and none at all, the latter making the deletion itself
fail, which is swallowed — leaves no cache entry, and propagates a
single error carrying the locator and the underlying cause. -/
theorem downloadUrl_failure_cleanup (w : World) (url cp msg : String) (hb : Option String)
    (hcp : getCachePath w url = some cp) (hmiss : w.fs cp = none)
    (hnet : w.net url = .fail msg hb) :
    (downloadUrl w url).2 = .error ("Failed to download " ++ url ++ ": " ++ msg) ∧
    (downloadUrl w url).1.fs (cp ++ ".tmp") = none ∧
    (downloadUrl w url).1.fs cp = none ∧
    (downloadUrl w url).1.fetchCount = w.fetchCount + 1 := by
  have hne := self_ne_append_tmp cp
  cases hb with
  | some half =>
      have hdl := downloadUrl_miss_fail w url cp msg (some half) hcp hmiss hnet
      rw [hdl]
      refine ⟨rfl, ?_, ?_, rfl⟩
      · show fsErase (cp ++ ".tmp") (fsWrite (cp ++ ".tmp") half w.fs) (cp ++ ".tmp") = none
        exact fsErase_same _ _
      · show fsErase (cp ++ ".tmp") (fsWrite (cp ++ ".tmp") half w.fs) cp = none
        rw [fsErase_other _ _ _ hne, fsWrite_other _ _ _ _ hne]
        exact hmiss
  | none =>
      have hdl := downloadUrl_miss_fail w url cp msg none hcp hmiss hnet
      rw [hdl]
      refine ⟨rfl, ?_, ?_, rfl⟩
      · show fsErase (cp ++ ".tmp") w.fs (cp ++ ".tmp") = none
        exact fsErase_same _ _
      · show fsErase (cp ++ ".tmp") w.fs cp = none
        rw [fsErase_other _ _ _ hne]
        exact hmiss

set_option maxRecDepth 1000000 in
/-- Instantiation of the failure cleanup theorem at a concrete world. -/
theorem downloadUrl_failure_cleanup_witness :
    getCachePath wNone "http://h/a.png" =
      some (cachePathIn "/home/u/.cache/inferencesh/files" ⟨"h", "/a.png", ""⟩) ∧
    wNone.fs (cachePathIn "/home/u/.cache/inferencesh/files" ⟨"h", "/a.png", ""⟩) = none ∧
    wNone.net "http://h/a.png" = .fail "offline" none ∧
    ((downloadUrl wNone "http://h/a.png").2 =
       .error ("Failed to download " ++ "http://h/a.png" ++ ": " ++ "offline") ∧
     (downloadUrl wNone "http://h/a.png").1.fs
       (cachePathIn "/home/u/.cache/inferencesh/files" ⟨"h", "/a.png", ""⟩ ++ ".tmp") = none ∧
     (downloadUrl wNone "http://h/a.png").1.fs
       (cachePathIn "/home/u/.cache/inferencesh/files" ⟨"h", "/a.png", ""⟩) = none ∧
     (downloadUrl wNone "http://h/a.png").1.fetchCount = wNone.fetchCount + 1) :=
  ⟨by decide, rfl, rfl,
   downloadUrl_failure_cleanup wNone "http://h/a.png"
     (cachePathIn "/home/u/.cache/inferencesh/files" ⟨"h", "/a.png", ""⟩) "offline" none
     (by decide) rfl rfl⟩

/-! ## C5: the target path never holds a partial file -/

/-- C5: during a guarded fetch for an absent cache entry, every prefix
of the primitive filesystem operation sequence — that is, every moment
an interruption or a concurrent observer could occur at — shows the
target path either absent or holding the complete fetched body, never
partial bytes; all operations before the committing rename touch only
the temporary sibling path; and the full operation sequence reproduces
exactly the filesystem the fetch path produces. -/
theorem downloadUrl_atomic_commit (w : World) (url cp : String)
    (hcp : getCachePath w url = some cp) (hmiss : w.fs cp = none) :
    (∀ p, applyOps w.fs (downloadUrlOps w url) p = (downloadUrl w url).1.fs p) ∧
    (∀ n : Nat,
      (applyOps w.fs ((downloadUrlOps w url).take n) cp = none ∨
       ∃ c, w.net url = .ok c ∧
         applyOps w.fs ((downloadUrlOps w url).take n) cp = some c) ∧
      (∀ p, p ≠ cp → p ≠ cp ++ ".tmp" →
        applyOps w.fs ((downloadUrlOps w url).take n) p = w.fs p)) := by
  have hne := self_ne_append_tmp cp
  cases hn : w.net url with
  | ok c =>
      have hops : downloadUrlOps w url =
          [.write (cp ++ ".tmp") c, .rename (cp ++ ".tmp") cp] := by
        simp [downloadUrlOps, hcp, hmiss, hn]
      have hdl := downloadUrl_miss_ok w url cp c hcp hmiss hn
      have hr : fsRename (cp ++ ".tmp") cp (fsWrite (cp ++ ".tmp") c w.fs) =
          fsWrite cp c (fsErase (cp ++ ".tmp") (fsWrite (cp ++ ".tmp") c w.fs)) := by
        simp [fsRename, fsWrite_same]
      constructor
      · intro p
        rw [hops, hdl]
        rfl
      · intro n
        rw [hops]
        match n with
        | 0 => exact ⟨Or.inl hmiss, fun p hp ht => rfl⟩
        | 1 =>
            refine ⟨Or.inl ?_, fun p hp ht => ?_⟩
            · show fsWrite (cp ++ ".tmp") c w.fs cp = none
              rw [fsWrite_other _ _ _ _ hne]
              exact hmiss
            · show fsWrite (cp ++ ".tmp") c w.fs p = w.fs p
              exact fsWrite_other _ _ _ _ ht
        | (m + 2) =>
            have ht2 : (([.write (cp ++ ".tmp") c,
                .rename (cp ++ ".tmp") cp] : List FsOp)).take (m + 2) =
                [.write (cp ++ ".tmp") c, .rename (cp ++ ".tmp") cp] :=
              List.take_of_length_le (by simp)
            rw [ht2]
            refine ⟨Or.inr ⟨c, rfl, ?_⟩, fun p hp ht => ?_⟩
            · show fsRename (cp ++ ".tmp") cp (fsWrite (cp ++ ".tmp") c w.fs) cp = some c
              exact fsRename_write_self _ _ _ _
            · show fsRename (cp ++ ".tmp") cp (fsWrite (cp ++ ".tmp") c w.fs) p = w.fs p
              rw [hr, fsWrite_other _ _ _ _ hp, fsErase_other _ _ _ ht,
                fsWrite_other _ _ _ _ ht]
  | fail msg hb =>
      have hdl := downloadUrl_miss_fail w url cp msg hb hcp hmiss hn
      cases hb with
      | some half =>
          have hops : downloadUrlOps w url =
              [.write (cp ++ ".tmp") half, .unlink (cp ++ ".tmp")] := by
            simp [downloadUrlOps, hcp, hmiss, hn]
          constructor
          · intro p
            rw [hops, hdl]
            rfl
          · intro n
            rw [hops]
            match n with
            | 0 => exact ⟨Or.inl hmiss, fun p hp ht => rfl⟩
            | 1 =>
                refine ⟨Or.inl ?_, fun p hp ht => ?_⟩
                · show fsWrite (cp ++ ".tmp") half w.fs cp = none
                  rw [fsWrite_other _ _ _ _ hne]
                  exact hmiss
                · show fsWrite (cp ++ ".tmp") half w.fs p = w.fs p
                  exact fsWrite_other _ _ _ _ ht
            | (m + 2) =>
                have ht2 : (([.write (cp ++ ".tmp") half,
                    .unlink (cp ++ ".tmp")] : List FsOp)).take (m + 2) =
                    [.write (cp ++ ".tmp") half, .unlink (cp ++ ".tmp")] :=
                  List.take_of_length_le (by simp)
                rw [ht2]
                refine ⟨Or.inl ?_, fun p hp ht => ?_⟩
                · show fsErase (cp ++ ".tmp") (fsWrite (cp ++ ".tmp") half w.fs) cp = none
                  rw [fsErase_other _ _ _ hne, fsWrite_other _ _ _ _ hne]
                  exact hmiss
                · show fsErase (cp ++ ".tmp") (fsWrite (cp ++ ".tmp") half w.fs) p = w.fs p
                  rw [fsErase_other _ _ _ ht, fsWrite_other _ _ _ _ ht]
      | none =>
          have hops : downloadUrlOps w url = [.unlink (cp ++ ".tmp")] := by
            simp [downloadUrlOps, hcp, hmiss, hn]
          constructor
          · intro p
            rw [hops, hdl]
            rfl
          · intro n
            rw [hops]
            match n with
            | 0 => exact ⟨Or.inl hmiss, fun p hp ht => rfl⟩
            | (m + 1) =>
                have ht1 : (([.unlink (cp ++ ".tmp")] : List FsOp)).take (m + 1) =
                    [.unlink (cp ++ ".tmp")] :=
                  List.take_of_length_le (by simp)
                rw [ht1]
                refine ⟨Or.inl ?_, fun p hp ht => ?_⟩
                · show fsErase (cp ++ ".tmp") w.fs cp = none
                  rw [fsErase_other _ _ _ hne]
                  exact hmiss
                · show fsErase (cp ++ ".tmp") w.fs p = w.fs p
                  exact fsErase_other _ _ _ ht

set_option maxRecDepth 1000000 in
/-- Instantiation of the atomic commit theorem at a concrete world. -/
theorem downloadUrl_atomic_commit_witness :
    getCachePath wNet "http://h/f.bin" =
      some (cachePathIn "/home/u/.cache/inferencesh/files" ⟨"h", "/f.bin", ""⟩) ∧
    wNet.fs (cachePathIn "/home/u/.cache/inferencesh/files" ⟨"h", "/f.bin", ""⟩) = none ∧
    ((∀ p, applyOps wNet.fs (downloadUrlOps wNet "http://h/f.bin") p =
        (downloadUrl wNet "http://h/f.bin").1.fs p) ∧
     (∀ n : Nat,
       (applyOps wNet.fs ((downloadUrlOps wNet "http://h/f.bin").take n)
          (cachePathIn "/home/u/.cache/inferencesh/files" ⟨"h", "/f.bin", ""⟩) = none ∨
        ∃ c, wNet.net "http://h/f.bin" = .ok c ∧
          applyOps wNet.fs ((downloadUrlOps wNet "http://h/f.bin").take n)
            (cachePathIn "/home/u/.cache/inferencesh/files" ⟨"h", "/f.bin", ""⟩) = some c) ∧
       (∀ p, p ≠ cachePathIn "/home/u/.cache/inferencesh/files" ⟨"h", "/f.bin", ""⟩ →
         p ≠ cachePathIn "/home/u/.cache/inferencesh/files" ⟨"h", "/f.bin", ""⟩ ++ ".tmp" →
         applyOps wNet.fs ((downloadUrlOps wNet "http://h/f.bin").take n) p = wNet.fs p))) :=
  ⟨by decide, rfl,
   downloadUrl_atomic_commit wNet "http://h/f.bin"
     (cachePathIn "/home/u/.cache/inferencesh/files" ⟨"h", "/f.bin", ""⟩) (by decide) rfl⟩


/-! ## C2: the shape of successful resolutions -/

/-- The claim that resolution never returns a reference to a
nonexistent path fails on the code: File.from on a descriptor whose
local path names no file on disk succeeds, returning a reference whose
path does not exist and whose metadata was never populated, with no
fetch performed. -/
theorem fileFrom_partial_counterexample :
    (fileFrom wNone (.data ⟨none, some "/nonexistent.bin", none, none, none, none⟩)).2 =
      .ok ⟨none, some "/nonexistent.bin", none, none, none⟩ ∧
    wNone.fs "/nonexistent.bin" = none ∧
    (fileFrom wNone
      (.data ⟨none, some "/nonexistent.bin", none, none, none, none⟩)).1.fetchCount = 0 :=
  ⟨rfl, rfl, rfl⟩

theorem mid_slash_ne_empty (a b : String) : a ++ "/" ++ b ≠ "" := by
  intro h
  have h2 := congrArg String.length h
  rw [String.length_append, String.length_append] at h2
  have h1 : ("/" : String).length = 1 := rfl
  have h0 : ("" : String).length = 0 := rfl
  omega

theorem resolveP_ne_empty (cwd s : String) (hs : s ≠ "") : resolveP cwd s ≠ "" := by
  unfold resolveP
  split
  · exact hs
  · exact mid_slash_ne_empty cwd s

theorem downloadUrl_ok (w w2 : World) (url p0 : String)
    (h : downloadUrl w url = (w2, .ok p0)) :
    getCachePath w url = some p0 ∧ (w2.fs p0).isSome = true := by
  cases hg : getCachePath w url with
  | none =>
      have hinv : downloadUrl w url = (w, .error "Invalid URL") := by
        simp [downloadUrl, hg]
      rw [hinv] at h
      simp at h
  | some cp =>
      cases hfs : w.fs cp with
      | some c =>
          rw [downloadUrl_hit w url cp c hg hfs] at h
          have hw : w = w2 := congrArg Prod.fst h
          have hp : cp = p0 := by
            have h2 := congrArg Prod.snd h
            simpa using h2
          subst hw
          subst hp
          exact ⟨rfl, by rw [hfs]; rfl⟩
      | none =>
          cases hn : w.net url with
          | ok c =>
              rw [downloadUrl_miss_ok w url cp c hg hfs hn] at h
              have hw : ({ w with
                  fs := fsRename (cp ++ ".tmp") cp (fsWrite (cp ++ ".tmp") c w.fs),
                  fetchCount := w.fetchCount + 1 } : World) = w2 := congrArg Prod.fst h
              have hp : cp = p0 := by
                have h2 := congrArg Prod.snd h
                simpa using h2
              subst hp
              refine ⟨rfl, ?_⟩
              rw [← hw]
              show (fsRename (cp ++ ".tmp") cp (fsWrite (cp ++ ".tmp") c w.fs) cp).isSome = true
              rw [fsRename_write_self]
              rfl
          | fail msg hb =>
              rw [downloadUrl_miss_fail w url cp msg hb hg hfs hn] at h
              simp at h

theorem finishFrom_ok (cwd : String) (w1 w2 : World) (f1 f : File)
    (h : finishFrom cwd w1 f1 = (w2, .ok f)) :
    w2 = w1 ∧ ∃ p0, f1.path = some p0 ∧ p0 ≠ "" ∧
      f = populateMetadata w1.fs { f1 with path := some (resolveP cwd p0) } := by
  cases hp : f1.path with
  | none =>
      simp only [finishFrom, hp] at h
      have h2 := congrArg Prod.snd h
      simp at h2
  | some p0 =>
      simp only [finishFrom, hp] at h
      by_cases hp0 : p0 = ""
      · rw [if_pos hp0] at h
        simp at h
      · rw [if_neg hp0] at h
        have hw : w1 = w2 := congrArg Prod.fst h
        have hf := congrArg Prod.snd h
        simp only [Except.ok.injEq] at hf
        exact ⟨hw.symm, p0, rfl, hp0, hf.symm⟩

theorem populate_fields (fs : Fs) (g : File) (p : String)
    (hgp : g.path = some p) (hp : ¬(p = "")) :
    (populateMetadata fs g).path = some p ∧
    ∀ c, fs p = some c →
      (populateMetadata fs g).size.isSome = true ∧
      (populateMetadata fs g).filename.isSome = true := by
  simp only [populateMetadata, hgp, hp, if_false]
  cases hfs : fs p with
  | none =>
      exact ⟨hgp, fun c hc => absurd hc (by simp)⟩
  | some content =>
      refine ⟨rfl, fun c hc => ⟨?_, ?_⟩⟩
      · show (if g.size.isSome then g.size else some content.length).isSome = true
        cases hsz : g.size <;> simp
      · show (if truthyS g.filename then g.filename else some (jsBasename p)).isSome = true
        cases hfn : truthyS g.filename
        · simp
        · simp only [if_pos]
          exact truthyS_isSome _ hfn

theorem finish_shape (cwd : String) (w1 w2 : World) (f1 f : File)
    (h : finishFrom cwd w1 f1 = (w2, .ok f)) :
    w2 = w1 ∧ ∃ p0, f1.path = some p0 ∧ f.path = some (resolveP cwd p0) ∧
      (∀ c, w1.fs (resolveP cwd p0) = some c →
        f.size.isSome = true ∧ f.filename.isSome = true) := by
  obtain ⟨hw, p0, hp0, hne0, hf⟩ := finishFrom_ok cwd w1 w2 f1 f h
  refine ⟨hw, p0, hp0, ?_, ?_⟩
  · rw [hf]
    exact (populate_fields w1.fs _ _ (by simp) (resolveP_ne_empty _ _ hne0)).1
  · intro c hc
    rw [hf]
    exact (populate_fields w1.fs _ _ (by simp) (resolveP_ne_empty _ _ hne0)).2 c hc

/-- C2 as amended: a non-copy resolution either fails, or returns a
reference with an established (nonempty) local path; when that path
names an existing file in the final world, size and filename metadata
are populated; and for a remote (recognized network scheme) string
input the path always names an existing file.  What the counterexample
removes from the original claim is only the existence and populated
metadata for local-path inputs naming no on-disk file. -/
theorem fileFrom_success_shape (w w1 : World) (inp : FromInput) (f : File)
    (hnc : ∀ g, inp ≠ FromInput.file g)
    (habs : startsSlash (getCacheDir w) = true)
    (h : fileFrom w inp = (w1, .ok f)) :
    ∃ p, f.path = some p ∧
      (∀ c, w1.fs p = some c → f.size.isSome = true ∧ f.filename.isSome = true) ∧
      (∀ url, inp = FromInput.str url → isUrl url = true → (w1.fs p).isSome = true) := by
  cases inp with
  | file g => exact absurd rfl (hnc g)
  | str s =>
      simp only [fileFrom, normalizeOptions] at h
      rcases eq_or_ne s "" with rfl | hs
      · rw [if_pos ⟨rfl, rfl⟩] at h
        have h2 := congrArg Prod.snd h
        simp at h2
      · have hcond : ¬(truthyS (some s) = false ∧ truthyS (none : Option String) = false) := by
          intro hand
          have h1 := hand.1
          simp [truthyS, hs] at h1
        rw [if_neg hcond] at h
        simp only [resolveUriStep] at h
        rw [if_neg hs] at h
        by_cases hurl : isUrl s = true
        · rw [if_pos hurl] at h
          rcases hdlr : downloadUrl w s with ⟨w2, r⟩
          rw [hdlr] at h
          cases r with
          | error e =>
              have h2 := congrArg Prod.snd h
              simp at h2
          | ok p0 =>
              obtain ⟨hg, hfs2⟩ := downloadUrl_ok w w2 s p0 hdlr
              obtain ⟨hw, p0b, hp0b, hfpath, hmeta⟩ := finish_shape w.cwd w2 w1 _ f h
              subst hw
              have hp0c : some p0 = some p0b := hp0b
              injection hp0c with hpe
              have habs0 : startsSlash p0 = true := by
                unfold getCachePath at hg
                cases hpu : parseUrl s with
                | none => rw [hpu] at hg; simp at hg
                | some u =>
                    rw [hpu, Option.map_some'] at hg
                    simp only [Option.some.injEq] at hg
                    rw [← hg]
                    exact cachePathIn_startsSlash _ _ habs
              have hres : resolveP w.cwd p0 = p0 := resolveP_abs _ _ habs0
              refine ⟨resolveP w.cwd p0b, hfpath, hmeta, fun url hin hu => ?_⟩
              rw [← hpe, hres]
              exact hfs2
        · have hurlf : isUrl s = false := by
            cases hb : isUrl s
            · rfl
            · exact absurd hb hurl
          rw [hurlf] at h
          simp only [Bool.false_eq_true, if_false] at h
          obtain ⟨hw, p0b, hp0b, hfpath, hmeta⟩ := finish_shape w.cwd w w1 _ f h
          rw [hw]
          refine ⟨resolveP w.cwd p0b, hfpath, hmeta, fun url hin hu => ?_⟩
          have hsu : s = url := by injection hin
          rw [← hsu] at hu
          rw [hurlf] at hu
          exact absurd hu (by simp)
  | data d =>
      simp only [fileFrom, normalizeOptions] at h
      by_cases hc : truthyS d.uri = false ∧ truthyS d.path = false
      · rw [if_pos hc] at h
        have h2 := congrArg Prod.snd h
        simp at h2
      · rw [if_neg hc] at h
        cases hu : d.uri with
        | none =>
            rw [hu] at h
            simp only [resolveUriStep] at h
            obtain ⟨hw, p0b, hp0b, hfpath, hmeta⟩ := finish_shape w.cwd w w1 _ f h
            rw [hw]
            exact ⟨resolveP w.cwd p0b, hfpath, hmeta, fun url hin => by cases hin⟩
        | some u =>
            rw [hu] at h
            simp only [resolveUriStep] at h
            by_cases hue : u = ""
            · rw [if_pos hue] at h
              obtain ⟨hw, p0b, hp0b, hfpath, hmeta⟩ := finish_shape w.cwd w w1 _ f h
              rw [hw]
              exact ⟨resolveP w.cwd p0b, hfpath, hmeta, fun url hin => by cases hin⟩
            · rw [if_neg hue] at h
              by_cases hurl : isUrl u = true
              · rw [if_pos hurl] at h
                rcases hdlr : downloadUrl w u with ⟨w2, r⟩
                rw [hdlr] at h
                cases r with
                | error e =>
                    have h2 := congrArg Prod.snd h
                    simp at h2
                | ok p0 =>
                    obtain ⟨hw, p0b, hp0b, hfpath, hmeta⟩ := finish_shape w.cwd w2 w1 _ f h
                    subst hw
                    exact ⟨resolveP w.cwd p0b, hfpath, hmeta, fun url hin => by cases hin⟩
              · have hurlf : isUrl u = false := by
                  cases hb : isUrl u
                  · rfl
                  · exact absurd hb hurl
                rw [hurlf] at h
                simp only [Bool.false_eq_true, if_false] at h
                obtain ⟨hw, p0b, hp0b, hfpath, hmeta⟩ := finish_shape w.cwd w w1 _ f h
                rw [hw]
                exact ⟨resolveP w.cwd p0b, hfpath, hmeta, fun url hin => by cases hin⟩

/-- A concrete world holding one local input file. -/
def wLocal : World :=
  ⟨fun p => if p = "/data/in.txt" then some "hello" else none,
   fun _ => .fail "offline" none, 0, "/cwd", "/home/u", none⟩

/-- Instantiation of the success shape theorem at a local input. -/
theorem fileFrom_success_shape_witness :
    (∀ g, FromInput.str "/data/in.txt" ≠ FromInput.file g) ∧
    startsSlash (getCacheDir wLocal) = true ∧
    fileFrom wLocal (.str "/data/in.txt") =
      (wLocal, .ok ⟨some "/data/in.txt", some "/data/in.txt",
                    some "text/plain", some 5, some "in.txt"⟩) ∧
    (∃ p, (⟨some "/data/in.txt", some "/data/in.txt",
            some "text/plain", some 5, some "in.txt"⟩ : File).path = some p ∧
      (∀ c, wLocal.fs p = some c →
        (⟨some "/data/in.txt", some "/data/in.txt",
          some "text/plain", some 5, some "in.txt"⟩ : File).size.isSome = true ∧
        (⟨some "/data/in.txt", some "/data/in.txt",
          some "text/plain", some 5, some "in.txt"⟩ : File).filename.isSome = true) ∧
      (∀ url, FromInput.str "/data/in.txt" = FromInput.str url → isUrl url = true →
        (wLocal.fs p).isSome = true)) :=
  by
  refine ⟨(fun g h => nomatch h), rfl, rfl, ?_⟩
  exact fileFrom_success_shape wLocal wLocal (.str "/data/in.txt")
    ⟨some "/data/in.txt", some "/data/in.txt", some "text/plain", some 5, some "in.txt"⟩
    (fun g h => nomatch h) rfl rfl

/-! ## C1: the download utility and the ephemeral TEMP directory -/

/-- A concrete world in which every path exists and every fetch fails. -/
def wAll : World :=
  ⟨fun _ => some "OLD", fun _ => .fail "down" none, 0, "/cwd", "/home/u", none⟩

set_option maxRecDepth 1000000 in
/-- The claim that a download into TEMP always performs a network fetch
fails on the code: with the File-level cache already holding the entry,
a download into TEMP succeeds with zero network fetches even though a
same-named file sits at the computed target path (the network here
fails every request, so a fetch could not have succeeded). -/
theorem download_temp_counterexample :
    wAll.fs (outputPathIn StorageDirTEMP ⟨"h", "/m.bin", ""⟩) = some "OLD" ∧
    (download wAll "http://h/m.bin" StorageDirTEMP).2 =
      .ok (outputPathIn StorageDirTEMP ⟨"h", "/m.bin", ""⟩) ∧
    (download wAll "http://h/m.bin" StorageDirTEMP).1.fetchCount = 0 :=
  ⟨rfl, by decide, by decide⟩

theorem populate_path (fs : Fs) (g : File) (p : String)
    (hgp : g.path = some p) (hp : ¬(p = "")) :
    (populateMetadata fs g).path = some p :=
  (populate_fields fs g p hgp hp).1

theorem fileFrom_str_url (w : World) (url cp c : String)
    (hne : url ≠ "") (hurl : isUrl url = true)
    (hcp : getCachePath w url = some cp) (hmiss : w.fs cp = none)
    (hnet : w.net url = .ok c) (hscp : startsSlash cp = true) :
    fileFrom w (.str url) =
      ({ w with fs := fsRename (cp ++ ".tmp") cp (fsWrite (cp ++ ".tmp") c w.fs),
                fetchCount := w.fetchCount + 1 },
       .ok (populateMetadata
         (fsRename (cp ++ ".tmp") cp (fsWrite (cp ++ ".tmp") c w.fs))
         ⟨some url, some cp, none, none, none⟩)) := by
  simp only [fileFrom, normalizeOptions]
  rw [if_neg (by intro hand; exact absurd hand.1 (by simp [truthyS, hne]))]
  simp only [resolveUriStep]
  rw [if_neg hne, if_pos hurl]
  rw [downloadUrl_miss_ok w url cp c hcp hmiss hnet]
  show finishFrom w.cwd _ _ = _
  simp only [finishFrom]
  rw [if_neg (startsSlash_ne_empty cp hscp), resolveP_abs w.cwd cp hscp]

theorem download_temp_forward (w : World) (url : String) (u : UrlParts) (c : String)
    (hpu : parseUrl url = some u)
    (hcache : w.fs (cachePathIn (getCacheDir w) u) = none)
    (hnet : w.net url = .ok c)
    (habs : startsSlash (getCacheDir w) = true) :
    (download w url StorageDirTEMP).2 = .ok (outputPathIn StorageDirTEMP u) ∧
    (download w url StorageDirTEMP).1.fetchCount = w.fetchCount + 1 ∧
    (download w url StorageDirTEMP).1.fs (outputPathIn StorageDirTEMP u) = some c := by
  have hne : url ≠ "" := parseUrl_ne_empty url u hpu
  have hurl : isUrl url = true := parseUrl_isUrl url u hpu
  have hcp : getCachePath w url = some (cachePathIn (getCacheDir w) u) :=
    getCachePath_of_parse w url u hpu
  have hscp : startsSlash (cachePathIn (getCacheDir w) u) = true :=
    cachePathIn_startsSlash _ _ habs
  generalize hgen : cachePathIn (getCacheDir w) u = cp at hcp hscp hcache
  generalize hgen2 : outputPathIn StorageDirTEMP u = out
  have hff := fileFrom_str_url w url cp c hne hurl hcp hcache hnet hscp
  have hfp : (populateMetadata
      (fsRename (cp ++ ".tmp") cp (fsWrite (cp ++ ".tmp") c w.fs))
      ⟨some url, some cp, none, none, none⟩).path = some cp :=
    populate_path _ _ _ rfl (startsSlash_ne_empty _ hscp)
  have hfsr : fsRename (cp ++ ".tmp") cp (fsWrite (cp ++ ".tmp") c w.fs) cp = some c :=
    fsRename_write_self _ _ _ _
  have hdown : download w url StorageDirTEMP =
      ({ w with
          fs := fsWrite out c
            (fsRename (cp ++ ".tmp") cp (fsWrite (cp ++ ".tmp") c w.fs)),
          fetchCount := w.fetchCount + 1 },
       .ok out) := by
    simp only [download, hpu]
    rw [hgen2]
    rw [if_neg (by intro hand; exact hand.2 rfl)]
    rw [hff]
    dsimp only
    rw [hfp]
    dsimp only
    rw [if_neg (startsSlash_ne_empty _ hscp)]
    rw [hfsr]
  refine ⟨by rw [hdown], by rw [hdown], by rw [hdown]; exact fsWrite_same _ _ _⟩

/-- C1 as amended: for the TEMP directory, an existing file at the
computed target path is never treated as a cache hit — the download
always proceeds through the File resolution (which performs the network
fetch whenever the File-level cache at the cache root lacks the entry)
and overwrites the target with the fetched body; for a non-TEMP
directory, an existing target file is returned as-is with no fetch and
no change to the world.  What the counterexample removes from the
original claim is only that a TEMP download fetches from the network
even when the File-level cache already holds the entry. -/
theorem download_temp_vs_nontemp :
    (∀ (w : World) (url : String) (u : UrlParts) (t c : String),
      parseUrl url = some u →
      w.fs (outputPathIn StorageDirTEMP u) = some t →
      w.fs (cachePathIn (getCacheDir w) u) = none →
      w.net url = .ok c →
      startsSlash (getCacheDir w) = true →
      (download w url StorageDirTEMP).2 = .ok (outputPathIn StorageDirTEMP u) ∧
      (download w url StorageDirTEMP).1.fetchCount = w.fetchCount + 1 ∧
      (download w url StorageDirTEMP).1.fs (outputPathIn StorageDirTEMP u) = some c) ∧
    (∀ (w : World) (url : String) (u : UrlParts) (t : String) (dir : String),
      parseUrl url = some u → dir ≠ StorageDirTEMP →
      w.fs (outputPathIn dir u) = some t →
      download w url dir = (w, .ok (outputPathIn dir u))) := by
  constructor
  · intro w url u t c hpu ht hcache hnet habs
    exact download_temp_forward w url u c hpu hcache hnet habs
  · intro w url u t dir hpu hdir ht
    simp only [download, hpu]
    rw [if_pos ⟨by rw [ht]; rfl, hdir⟩]

/-- A concrete world where all target directories already hold files
but the File cache root holds nothing, and the network serves one URL. -/
def wTemp : World :=
  ⟨fun p => if p.data.take 5 = "/app/".data then some "OLD" else none,
   fun u => if u = "http://h/m.bin" then .ok "NEW" else .fail "down" none,
   0, "/cwd", "/home/u", none⟩

set_option maxRecDepth 1000000 in
/-- Instantiation of the TEMP versus non-TEMP theorem at a concrete
world, for both directions. -/
theorem download_temp_vs_nontemp_witness :
    parseUrl "http://h/m.bin" = some ⟨"h", "/m.bin", ""⟩ ∧
    wTemp.fs (outputPathIn StorageDirTEMP ⟨"h", "/m.bin", ""⟩) = some "OLD" ∧
    wTemp.fs (cachePathIn (getCacheDir wTemp) ⟨"h", "/m.bin", ""⟩) = none ∧
    wTemp.net "http://h/m.bin" = .ok "NEW" ∧
    startsSlash (getCacheDir wTemp) = true ∧
    ((download wTemp "http://h/m.bin" StorageDirTEMP).2 =
       .ok (outputPathIn StorageDirTEMP ⟨"h", "/m.bin", ""⟩) ∧
     (download wTemp "http://h/m.bin" StorageDirTEMP).1.fetchCount = wTemp.fetchCount + 1 ∧
     (download wTemp "http://h/m.bin" StorageDirTEMP).1.fs
       (outputPathIn StorageDirTEMP ⟨"h", "/m.bin", ""⟩) = some "NEW") ∧
    ("/app/data" : String) ≠ StorageDirTEMP ∧
    wTemp.fs (outputPathIn "/app/data" ⟨"h", "/m.bin", ""⟩) = some "OLD" ∧
    download wTemp "http://h/m.bin" "/app/data" =
      (wTemp, .ok (outputPathIn "/app/data" ⟨"h", "/m.bin", ""⟩)) :=
  ⟨by decide, by decide, by decide, by decide, rfl,
   download_temp_vs_nontemp.1 wTemp "http://h/m.bin" ⟨"h", "/m.bin", ""⟩ "OLD" "NEW"
     (by decide) (by decide) (by decide) (by decide) rfl,
   by decide, by decide,
   download_temp_vs_nontemp.2 wTemp "http://h/m.bin" ⟨"h", "/m.bin", ""⟩ "OLD" "/app/data"
     (by decide) (by decide) (by decide)⟩

/-! ## C10: snake-case versus camel-case content type -/

/-- A concrete world holding one png file. -/
def wPng : World :=
  ⟨fun p => if p = "/pics/a.png" then some "PNGDATA" else none,
   fun _ => .fail "offline" none, 0, "/cwd", "/home/u", none⟩

/-- The claim that the snake-case content_type value always becomes the
reference content type fails on the code at the empty string: an empty
content_type shadows the camel-case spelling during normalization but
is then treated as unset by metadata population and replaced by the
extension-inferred type, so the final reference carries neither given
value. -/
theorem contentType_empty_snake_counterexample :
    (FileDataInput.mk none (some "/pics/a.png") (some "") (some "text/plain")
      none none).content_type = some "" ∧
    (fileFrom wPng (.data ⟨none, some "/pics/a.png", some "", some "text/plain",
      none, none⟩)).2 =
      .ok ⟨none, some "/pics/a.png", some "image/png", some 7, some "a.png"⟩ ∧
    (some "image/png" : Option String) ≠ some "" :=
  ⟨rfl, rfl, by decide⟩

theorem populate_ct (fs : Fs) (g : File) (htr : truthyS g.contentType = true) :
    (populateMetadata fs g).contentType = g.contentType := by
  cases hp : g.path with
  | none => simp only [populateMetadata, hp]
  | some p =>
      simp only [populateMetadata, hp]
      by_cases hpe : p = ""
      · rw [if_pos hpe]
      · rw [if_neg hpe]
        cases hfs : fs p with
        | none => rfl
        | some content =>
            show (if truthyS g.contentType then g.contentType
                  else guessContentType p) = g.contentType
            rw [if_pos htr]

theorem finish_ct (cwd : String) (w1 w2 : World) (f1 f : File)
    (h : finishFrom cwd w1 f1 = (w2, .ok f))
    (htr : truthyS f1.contentType = true) :
    f.contentType = f1.contentType := by
  obtain ⟨hw, p0, hp0, hne0, hf⟩ := finishFrom_ok cwd w1 w2 f1 f h
  rw [hf]
  exact populate_ct w1.fs { f1 with path := some (resolveP cwd p0) } htr

/-- C10 as amended: when a descriptor carries a nonempty snake-case
content_type, that value is the resolved reference content type, the
camel-case spelling being ignored; when content_type is absent, the
normalization falls back to the camel-case spelling.  What the
counterexample removes from the original claim is only the case of an
empty-string content_type, which shadows the camel-case value during
normalization but is then replaced by extension inference. -/
theorem contentType_snake_precedence :
    (∀ (w : World) (d : FileDataInput) (ct : String) (w1 : World) (f : File),
      d.content_type = some ct → ct ≠ "" →
      fileFrom w (.data d) = (w1, .ok f) → f.contentType = some ct) ∧
    (∀ d : FileDataInput, d.content_type = none →
      (normalizeOptions (.data d)).contentType = d.contentType) := by
  constructor
  · intro w d ct w1 f hct hne h
    simp only [fileFrom, normalizeOptions, hct] at h
    by_cases hc : truthyS d.uri = false ∧ truthyS d.path = false
    · rw [if_pos hc] at h
      have h2 := congrArg Prod.snd h
      simp at h2
    · rw [if_neg hc] at h
      have htr : truthyS (some ct) = true := by simp [truthyS, hne]
      cases hu : d.uri with
      | none =>
          rw [hu] at h
          simp only [resolveUriStep] at h
          rw [finish_ct _ _ _ _ _ h htr]
      | some u =>
          rw [hu] at h
          simp only [resolveUriStep] at h
          by_cases hue : u = ""
          · rw [if_pos hue] at h
            rw [finish_ct _ _ _ _ _ h htr]
          · rw [if_neg hue] at h
            by_cases hurl : isUrl u = true
            · rw [if_pos hurl] at h
              rcases hdlr : downloadUrl w u with ⟨w2, r⟩
              rw [hdlr] at h
              cases r with
              | error e =>
                  have h2 := congrArg Prod.snd h
                  simp at h2
              | ok p0 =>
                  rw [finish_ct _ _ _ _ _ h htr]
            · have hurlf : isUrl u = false := by
                cases hb : isUrl u
                · rfl
                · exact absurd hb hurl
              rw [hurlf] at h
              simp only [Bool.false_eq_true, if_false] at h
              rw [finish_ct _ _ _ _ _ h htr]
  · intro d hd
    simp [normalizeOptions, hd]

/-- Instantiation of the snake-case precedence theorem at a concrete
descriptor carrying both spellings. -/
theorem contentType_snake_precedence_witness :
    (FileDataInput.mk none (some "/pics/a.png") (some "text/csv") (some "text/plain")
      none none).content_type = some "text/csv" ∧
    ("text/csv" : String) ≠ "" ∧
    fileFrom wPng (.data ⟨none, some "/pics/a.png", some "text/csv", some "text/plain",
      none, none⟩) =
      (wPng, .ok ⟨none, some "/pics/a.png", some "text/csv", some 7, some "a.png"⟩) ∧
    (⟨none, some "/pics/a.png", some "text/csv", some 7, some "a.png"⟩ : File).contentType =
      some "text/csv" :=
  ⟨rfl, by decide, rfl,
   contentType_snake_precedence.1 wPng
     ⟨none, some "/pics/a.png", some "text/csv", some "text/plain", none, none⟩
     "text/csv" wPng
     ⟨none, some "/pics/a.png", some "text/csv", some 7, some "a.png"⟩
     rfl (by decide) rfl⟩
